import Mathlib

/-!
Verification of the Lumen RAG ingestion/retrieval engine
(`api/app/services/azure_rag_service.py`, `api/app/services/file_processor.py`,
`api/app/routers/files.py`) against its natural-language specification.

Python strings are modelled as `List Char` (`PStr`), so that all text
operations of the source (split, strip, join, slicing) are executable and
amenable to induction.  The external tiktoken `cl100k_base` tokenizer is
modelled abstractly by a `Tokenizer` structure (encode/decode); a concrete
whitespace-word tokenizer `wordTok` instantiates it for concrete evaluation.
External collaborators (Azure AI Search, Azure OpenAI embeddings) are modelled
at their interface boundary: the vector index as a list of records whose
query/delete operations honour their filters, and the embedding endpoint as an
oracle mapping the HTTP-call counter to a response.
-/

namespace Lumen

/-- Model of a Python `str`: a list of characters. -/
abbrev PStr := List Char

/-- Whitespace test used by the model tokenizer and by `str.strip`. -/
def wsChar (c : Char) : Bool :=
  c == ' ' || c == '\n' || c == '\t' || c == '\r'

/-- Split a character list at every character satisfying `p`, keeping empty
pieces (the semantics of a regex split on a single-char class). -/
def splitP (p : Char → Bool) : PStr → List PStr
  | [] => [[]]
  | c :: cs =>
    match splitP p cs with
    | [] => [[]]
    | h :: t => if p c then [] :: h :: t else (c :: h) :: t

/-- The word tokenizer's `encode`: maximal whitespace-free runs of `s`.
Models a subword tokenizer at word granularity. -/
def words (s : PStr) : List PStr :=
  (splitP wsChar s).filter (fun w => !w.isEmpty)

/-- Python `sep.join(pieces)`. -/
def joinWith (sep : PStr) : List PStr → PStr
  | [] => []
  | [x] => x
  | x :: y :: xs => x ++ sep ++ joinWith sep (y :: xs)

/-- Python `' '.join(pieces)`. -/
def joinSp (l : List PStr) : PStr := joinWith [' '] l

/-- Python `'\n\n'.join(pieces)`. -/
def joinPara (l : List PStr) : PStr := joinWith ['\n', '\n'] l

/-- Python `s.strip()`. -/
def pTrim (s : PStr) : PStr :=
  ((s.dropWhile wsChar).reverse.dropWhile wsChar).reverse

/-- Python `text.split('\n\n')`: leftmost, non-overlapping occurrences of the
two-character separator. -/
def splitParas : PStr → List PStr
  | '\n' :: '\n' :: rest => [] :: splitParas rest
  | c :: rest =>
    match splitParas rest with
    | [] => [[c]]
    | h :: t => (c :: h) :: t
  | [] => [[]]

/-- Python `text.split('\n')`. -/
def splitNl (s : PStr) : List PStr := splitP (· == '\n') s

/-- `LocalChunker.chunk_text`'s header helper: first line of the paragraph
whose stripped form starts with `'#'`, with the leading `'#'`s and surrounding
whitespace removed (`line.strip().lstrip('#').strip()`). -/
def get_header (p : PStr) : Option PStr :=
  (splitNl p).findSome? fun line =>
    let t := pTrim line
    match t with
    | '#' :: _ => some (pTrim (t.dropWhile (· == '#')))
    | _ => none

/-- Sentence-final punctuation of `LocalChunker._split_sentences`. -/
def sentPunct (c : Char) : Bool := c == '.' || c == '!' || c == '?'

/-- Raw pieces of `re.split(r'(?<=[.!?])\s+', text)`: a sentence ends after a
`.`/`!`/`?` that is immediately followed by whitespace. -/
def splitSentAux (acc : PStr) : PStr → List PStr
  | [] => [acc.reverse]
  | c :: rest =>
    if sentPunct c && (match rest with | r :: _ => wsChar r | [] => false) then
      (c :: acc).reverse :: splitSentAux [] rest
    else
      splitSentAux (c :: acc) rest

/-- `LocalChunker._split_sentences`: split on `. ! ?` followed by whitespace,
strip each piece, drop empties. -/
def split_sentences (s : PStr) : List PStr :=
  ((splitSentAux [] s).map pTrim).filter (fun x => !x.isEmpty)

/-- Abstract tokenizer interface standing for tiktoken's `cl100k_base`
encoding: `encode` turns text into a token sequence, `decode` inverts it.
Tokens are modelled by the text they decode to. -/
structure Tokenizer where
  encode : PStr → List PStr
  decode : List PStr → PStr

/-- Concrete model tokenizer: one token per whitespace-separated word. -/
def wordTok : Tokenizer :=
  { encode := words, decode := joinSp }

/-- `DocumentChunk` dataclass of `azure_rag_service.py`. -/
structure DocumentChunk where
  content : PStr
  chunk_index : Nat
  token_count : Nat
  char_start : Nat
  char_end : Nat
  section_header : Option PStr := none
  deriving Repr, DecidableEq

/-- `LocalChunker` configuration (`chunk_size`/`chunk_overlap` fields set by
`__init__`). -/
structure LocalChunker where
  chunk_size : Nat
  chunk_overlap : Nat
  deriving Repr, DecidableEq

/-- `LocalChunker.__init__(chunk_size, chunk_overlap)`.  The constructor can
in principle raise (modelled by `Except`), but the source performs no
validation: it only stores the two values. -/
def LocalChunker.init (chunk_size chunk_overlap : Nat) :
    Except String LocalChunker :=
  .ok { chunk_size := chunk_size, chunk_overlap := chunk_overlap }

/-- `LocalChunker._get_overlap_text(chunks, overlap_tokens)`: decode the last
`overlap_tokens` tokens of `'\n\n'.join(chunks)`.  Note Python's
`tokens[-overlap_tokens:]` is the whole list when `overlap_tokens = 0`. -/
def get_overlap_text (tok : Tokenizer) (chunks : List PStr) (overlap_tokens : Nat) : PStr :=
  let combined := joinPara chunks
  let tokens := tok.encode combined
  if tokens.length ≤ overlap_tokens then combined
  else tok.decode (if overlap_tokens = 0 then tokens else tokens.drop (tokens.length - overlap_tokens))

/-- Mutable state of the sentence-level (oversized paragraph) inner loop of
`chunk_text`. -/
structure SentState where
  chunks : List DocumentChunk
  chunk_index : Nat
  char_position : Nat
  sentence_start : Nat
  sentence_chunk : List PStr
  sentence_tokens : Nat
  deriving Repr

/-- One iteration of `for sentence in sentences` in `chunk_text`. -/
def stepSent (tok : Tokenizer) (ck : LocalChunker) (header : Option PStr)
    (st : SentState) (sentence : PStr) : SentState :=
  let sent_token_count := (tok.encode sentence).length
  let st :=
    if ck.chunk_size < st.sentence_tokens + sent_token_count ∧ st.sentence_chunk ≠ [] then
      let emitted : DocumentChunk :=
        { content := joinSp st.sentence_chunk
          chunk_index := st.chunk_index
          token_count := st.sentence_tokens
          char_start := st.sentence_start
          char_end := st.char_position
          section_header := header }
      let overlap_text := get_overlap_text tok st.sentence_chunk ck.chunk_overlap
      let new_chunk : List PStr := if overlap_text = [] then [] else [overlap_text]
      { chunks := st.chunks ++ [emitted]
        chunk_index := st.chunk_index + 1
        char_position := st.char_position
        sentence_start := st.char_position
        sentence_chunk := new_chunk
        sentence_tokens := (tok.encode (joinSp new_chunk)).length }
    else st
  { st with
      sentence_chunk := st.sentence_chunk ++ [sentence]
      sentence_tokens := st.sentence_tokens + sent_token_count
      char_position := st.char_position + sentence.length + 1 }

/-- Mutable state of the paragraph-level loop of `chunk_text`. -/
structure ChunkState where
  chunks : List DocumentChunk
  current_chunk : List PStr
  current_tokens : Nat
  char_position : Nat
  chunk_start_char : Nat
  chunk_index : Nat
  current_header : Option PStr
  deriving Repr

/-- `chunk_text`, oversized-paragraph case, step one: save the pending buffer
as a chunk if it is non-empty. -/
def flushCurrent (header : Option PStr) (st : ChunkState) : ChunkState :=
  if st.current_chunk ≠ [] then
    { st with
        chunks := st.chunks ++ [{
          content := joinPara st.current_chunk
          chunk_index := st.chunk_index
          token_count := st.current_tokens
          char_start := st.chunk_start_char
          char_end := st.char_position
          section_header := header }]
        chunk_index := st.chunk_index + 1 }
  else st

/-- `chunk_text`, oversized-paragraph case, step two: enter the sentence loop
with an empty sentence buffer starting at the current character position. -/
def sentLoopInit (st : ChunkState) : SentState :=
  { chunks := st.chunks
    chunk_index := st.chunk_index
    char_position := st.char_position
    sentence_start := st.char_position
    sentence_chunk := []
    sentence_tokens := 0 }

/-- `chunk_text`, oversized-paragraph case, last step: save the remaining
sentences as a chunk if any. -/
def sentFinal (header : Option PStr) (s : SentState) : SentState :=
  if s.sentence_chunk ≠ [] then
    { s with
        chunks := s.chunks ++ [{
          content := joinSp s.sentence_chunk
          chunk_index := s.chunk_index
          token_count := s.sentence_tokens
          char_start := s.sentence_start
          char_end := s.char_position
          section_header := header }]
        chunk_index := s.chunk_index + 1 }
  else s

/-- One iteration of `for para in paragraphs` in `chunk_text`, for a stripped,
non-empty paragraph. -/
def stepPara (tok : Tokenizer) (ck : LocalChunker) (st : ChunkState) (para : PStr) :
    ChunkState :=
  let header := match get_header para with
    | some h => some h
    | none => st.current_header
  let para_token_count := (tok.encode para).length
  if ck.chunk_size < para_token_count then
    -- oversized paragraph: flush pending buffer, then re-split by sentences
    let s2 := sentFinal header
      ((split_sentences para).foldl (stepSent tok ck header)
        (sentLoopInit (flushCurrent header st)))
    { chunks := s2.chunks
      current_chunk := []
      current_tokens := 0
      char_position := s2.char_position + para.length + 2
      chunk_start_char := s2.char_position
      chunk_index := s2.chunk_index
      current_header := header }
  else if ck.chunk_size < st.current_tokens + para_token_count ∧ st.current_chunk ≠ [] then
    -- flush the buffer and seed the next one with overlap text
    let emitted : DocumentChunk :=
      { content := joinPara st.current_chunk
        chunk_index := st.chunk_index
        token_count := st.current_tokens
        char_start := st.chunk_start_char
        char_end := st.char_position
        section_header := header }
    let overlap_text := get_overlap_text tok st.current_chunk ck.chunk_overlap
    let new_current : List PStr := if overlap_text = [] then [para] else [overlap_text, para]
    { chunks := st.chunks ++ [emitted]
      current_chunk := new_current
      current_tokens := (tok.encode (joinPara new_current)).length
      char_position := st.char_position + para.length + 2
      chunk_start_char := st.char_position
      chunk_index := st.chunk_index + 1
      current_header := header }
  else
    { st with
        current_chunk := st.current_chunk ++ [para]
        current_tokens := st.current_tokens + para_token_count
        char_position := st.char_position + para.length + 2
        current_header := header }

/-- Initial state of `chunk_text`'s loop. -/
def initChunkState : ChunkState :=
  { chunks := []
    current_chunk := []
    current_tokens := 0
    char_position := 0
    chunk_start_char := 0
    chunk_index := 0
    current_header := none }

/-- The stripped, non-empty paragraphs `chunk_text` iterates over
(`text.split('\n\n')`, each `para.strip()`, skipping empties). -/
def parasOf (text : PStr) : List PStr :=
  ((splitParas text).map pTrim).filter (fun p => !p.isEmpty)

/-- `LocalChunker.chunk_text(text)`. -/
def chunk_text (tok : Tokenizer) (ck : LocalChunker) (text : PStr) :
    List DocumentChunk :=
  let st := (parasOf text).foldl (stepPara tok ck) initChunkState
  if st.current_chunk ≠ [] then
    st.chunks ++ [{
      content := joinPara st.current_chunk
      chunk_index := st.chunk_index
      token_count := st.current_tokens
      char_start := st.chunk_start_char
      char_end := st.char_position
      section_header := st.current_header }]
  else st.chunks

/-! Embedding batcher (`_generate_embeddings_bulk`) -/

/-- An embedding vector.  The float components are modelled as integers; no
claim performs arithmetic on them. -/
abbrev Vec := List Int

/-- One item of the embedding endpoint's `response.data`: the per-request
`index` and the vector. -/
structure EmbedItem where
  index : Nat
  embedding : Vec
  deriving Repr, DecidableEq

/-- Outcome of one `embeddings.create` HTTP call: success with a data list,
HTTP 429 (`RateLimitError`), or any other exception. -/
inductive EmbedResp where
  | ok (items : List EmbedItem)
  | rateLimit
  | fatal
  deriving Repr, DecidableEq

/-- The remote embedding endpoint, as an oracle from the process-wide HTTP
call counter to the response of that call. -/
abbrev Provider := Nat → EmbedResp

/-- Configuration of the batcher (`EMBEDDING_BATCH_SIZE`,
`EMBEDDING_MAX_RETRIES`, `EMBEDDING_RETRY_DELAY`). -/
structure EmbedCfg where
  batch_size : Nat
  max_retries : Nat
  retry_delay : ℚ

/-- Errors raised out of `_generate_embeddings_bulk`. -/
inductive EmbError where
  | rateLimited
  | provider
  deriving Repr, DecidableEq

/-- `sorted(response.data, key=lambda item: item.index)` followed by
extraction of the vectors, keeping each batch ordered by the provider's
per-item index (Python `sorted` modelled as a comparison sort on the
index key). -/
def sortedEmbeddings (items : List EmbedItem) : List Vec :=
  (items.insertionSort (fun a b => a.index ≤ b.index)).map (·.embedding)

/-- Result of embedding one batch: the outcome, the next value of the HTTP
call counter, and the sequence of back-off delays slept. -/
structure BatchResult where
  outcome : Except EmbError (List Vec)
  calls : Nat
  delays : List ℚ

/-- The `while True` retry loop of `_generate_embeddings_bulk` for one batch:
on success, sort by index and return; on `RateLimitError`, increment
`attempt`, fail once `attempt > max_retries`, otherwise sleep
`retry_delay * attempt` and retry; on any other error, abort immediately.
`fuel` bounds the recursion; it is spent only on retries, and the callers
supply `fuel = max_retries` so it never runs out before `attempt` does. -/
def runBatch (cfg : EmbedCfg) (p : Provider) (call attempt fuel : Nat) :
    BatchResult :=
  match p call with
  | .ok items => { outcome := .ok (sortedEmbeddings items), calls := call + 1, delays := [] }
  | .fatal => { outcome := .error .provider, calls := call + 1, delays := [] }
  | .rateLimit =>
    let a := attempt + 1
    if cfg.max_retries < a then
      { outcome := .error .rateLimited, calls := call + 1, delays := [] }
    else
      match fuel with
      | 0 => { outcome := .error .rateLimited, calls := call + 1, delays := [] }
      | f + 1 =>
        let r := runBatch cfg p (call + 1) a f
        { r with delays := cfg.retry_delay * a :: r.delays }

/-- Fuel-driven splitting of a list into consecutive batches of `max 1 bs`
elements; the fuel (an upper bound on the list length) only drives structural
recursion. -/
def toBatchesGo (bs : Nat) : Nat → List α → List (List α)
  | _, [] => []
  | 0, _ :: _ => []
  | fuel + 1, x :: xs =>
    (x :: xs).take (max 1 bs) :: toBatchesGo bs fuel ((x :: xs).drop (max 1 bs))

/-- `texts[start:start+batch_size]` for `start in range(0, len(texts), bs)`:
the consecutive batches of size `bs`. -/
def toBatches (bs : Nat) (l : List α) : List (List α) :=
  toBatchesGo bs l.length l

/-- Process the batch list sequentially, threading the call counter and
extending the embedding list; the first batch error aborts the whole call. -/
def runBatches (cfg : EmbedCfg) (p : Provider) : List (List PStr) → Nat → BatchResult
  | [], call => { outcome := .ok [], calls := call, delays := [] }
  | _ :: bs, call =>
    let r := runBatch cfg p call 0 cfg.max_retries
    match r.outcome with
    | .error e => { outcome := .error e, calls := r.calls, delays := r.delays }
    | .ok vecs =>
      let rest := runBatches cfg p bs r.calls
      match rest.outcome with
      | .error e => { outcome := .error e, calls := rest.calls, delays := r.delays ++ rest.delays }
      | .ok vs => { outcome := .ok (vecs ++ vs), calls := rest.calls, delays := r.delays ++ rest.delays }

/-- `_generate_embeddings_bulk(texts)`. -/
def generate_embeddings_bulk (cfg : EmbedCfg) (p : Provider) (texts : List PStr)
    (call : Nat) : BatchResult :=
  if texts.isEmpty then { outcome := .ok [], calls := call, delays := [] }
  else runBatches cfg p (toBatches (max 1 cfg.batch_size) texts) call

/-- `_generate_embedding(text)`: embed a single text and take `embeddings[0]`
(an empty result list would raise `IndexError`, modelled as a provider
error). -/
def generate_embedding (cfg : EmbedCfg) (p : Provider) (text : PStr) (call : Nat) :
    Except EmbError Vec × Nat :=
  let r := generate_embeddings_bulk cfg p [text] call
  match r.outcome with
  | .error e => (.error e, r.calls)
  | .ok [] => (.error .provider, r.calls)
  | .ok (v :: _) => (.ok v, r.calls)

/-! Vector index (Azure AI Search collection)

The index is modelled as a list of `Record`s (the documents of the Azure
Search collection).  A `search` call with an OData filter and a `top` limit is
modelled as the service honouring the filter and returning at most `top`
matching documents; a batched `upload_documents`/`delete_documents` call as
appending/removing the keyed documents. -/

/-- The persisted unit in the vector index, as built by `upload_document`
(`id = f"{file_id}_{chunk.chunk_index}"` is the collection key). -/
structure Record where
  id : String
  file_id : String
  org_id : String
  user_id : String
  filename : String
  content : PStr
  chunk_index : Nat
  token_count : Nat
  page_number : Option Nat
  section_header : Option PStr
  content_vector : Vec
  deriving Repr, DecidableEq

/-- The filter of `get_document_status`/`delete_document`:
`file_id eq '{f}' and org_id eq '{o}' and user_id eq '{u}'`. -/
def matchesDoc (f o u : String) (r : Record) : Bool :=
  r.file_id == f && r.org_id == o && r.user_id == u

/-- The filter of `search_documents`:
`org_id eq '{o}' and user_id eq '{u}'`, plus
`(file_id eq ... or ...)` when a non-empty `file_ids` list is given
(Python `if file_ids:` treats `[]`/`None` alike). -/
def matchesSearch (o u : String) (file_ids : List String) (r : Record) : Bool :=
  r.org_id == o && r.user_id == u && (file_ids.isEmpty || file_ids.contains r.file_id)

/-- One entry of the list returned by `search_documents` (the `select`ed
fields plus the score; `org_id`/`user_id` are not selected). -/
structure SearchChunk where
  file_id : String
  filename : String
  content : PStr
  chunk_index : Nat
  token_count : Nat
  page_number : Option Nat
  section_header : Option PStr
  score : Int
  deriving Repr, DecidableEq

/-- Projection of an index record to a search result entry. -/
def projRecord (score : Int) (r : Record) : SearchChunk :=
  { file_id := r.file_id
    filename := r.filename
    content := r.content
    chunk_index := r.chunk_index
    token_count := r.token_count
    page_number := r.page_number
    section_header := r.section_header
    score := score }

/-- `search_documents(query, org_id, user_id, file_ids, top_k)`: embed the
query, then run a filtered vector search.  The external ANN search is modelled
as: rank the filter-matching documents by the similarity score `sim` of their
vector against the query vector (descending) and return the first `top_k`. -/
def search_documents (cfg : EmbedCfg) (p : Provider) (sim : Vec → Vec → Int)
    (index : List Record) (query : PStr) (org_id user_id : String)
    (file_ids : List String) (top_k : Nat) (call : Nat) :
    Except EmbError (List SearchChunk) :=
  match (generate_embedding cfg p query call).1 with
  | .error e => .error e
  | .ok qvec =>
    let filtered := index.filter (matchesSearch org_id user_id file_ids)
    let ranked := filtered.insertionSort
      (fun a b => sim qvec b.content_vector ≤ sim qvec a.content_vector)
    .ok ((ranked.take top_k).map (fun r => projRecord (sim qvec r.content_vector) r))

/-- Errors raised out of `upload_document`. -/
inductive UploadError where
  | embed (e : EmbError)
  | countMismatch
  deriving Repr, DecidableEq

/-- Successful result of `upload_document`: `{"chunk_count": ..., "note": ...}`. -/
structure UploadNote where
  chunk_count : Nat
  note : String
  deriving Repr, DecidableEq

/-- `upload_document(file_id, org_id, user_id, content, filename)`: chunk the
text locally, embed every chunk, require exactly one vector per chunk
(otherwise raise before any upsert), build the search documents and upsert
them.  Returns the outcome together with the index as left by the call. -/
def upload_document (tok : Tokenizer) (ck : LocalChunker) (cfg : EmbedCfg)
    (p : Provider) (index : List Record) (file_id org_id user_id : String)
    (content : PStr) (filename : String) (call : Nat) :
    Except UploadError UploadNote × List Record :=
  let chunks := chunk_text tok ck content
  if chunks.isEmpty then
    (.ok { chunk_count := 0, note := "No content to index" }, index)
  else
    let chunk_bodies := chunks.map (·.content)
    match (generate_embeddings_bulk cfg p chunk_bodies call).outcome with
    | .error e => (.error (.embed e), index)
    | .ok chunk_embeddings =>
      if chunk_embeddings.length ≠ chunks.length then
        (.error .countMismatch, index)
      else
        let documents := (chunks.zip chunk_embeddings).map fun (c, emb) =>
          { id := file_id ++ "_" ++ toString c.chunk_index
            file_id := file_id
            org_id := org_id
            user_id := user_id
            filename := filename
            content := c.content
            chunk_index := c.chunk_index
            token_count := c.token_count
            page_number := none
            section_header := c.section_header
            content_vector := emb : Record }
        (.ok { chunk_count := chunks.length
               note := "Indexed with local chunking" }, index ++ documents)

/-- `delete_document(file_id, org_id, user_id)`: search for the document's
chunks with the tenant filter and `top=1000`, then delete the collected ids in
batches of 100.  Returns the new index and the number of records removed. -/
def delete_document (index : List Record) (file_id org_id user_id : String) :
    List Record × Nat :=
  let results := (index.filter (matchesDoc file_id org_id user_id)).take 1000
  let doc_ids := results.map (·.id)
  if doc_ids.isEmpty then (index, 0)
  else
    let batches := toBatches 100 doc_ids
    let newIndex := batches.foldl (fun acc batch => acc.filter (fun r => !batch.contains r.id)) index
    (newIndex, index.length - newIndex.length)

/-- Result of `get_document_status`. -/
structure DocStatus where
  indexed : Bool
  chunk_count : Nat
  note : String
  deriving Repr, DecidableEq

/-- `get_document_status(file_id, org_id, user_id)`.  The two `search` calls
may fail; `fail1`/`fail2` are `some errText` when the corresponding call
raises.  A failure of the first search is caught by the outer handler and
reported; a failure of the second (count-refinement) search is swallowed by
the inner bare `except: pass`, keeping the count from the first search
(`top=1`, hence at most 1). -/
def get_document_status (index : List Record) (file_id org_id user_id : String)
    (fail1 fail2 : Option String) : DocStatus :=
  match fail1 with
  | some e => { indexed := false, chunk_count := 0, note := "Error checking status: " ++ e }
  | none =>
    let count1 := ((index.filter (matchesDoc file_id org_id user_id)).take 1).length
    let count :=
      match fail2 with
      | some _ => count1
      | none => ((index.filter (matchesDoc file_id org_id user_id)).take 1000).length
    { indexed := 0 < count
      chunk_count := count
      note := if 0 < count then "Document has " ++ toString count ++ " indexed chunks"
              else "Document not indexed" }

/-! File processor (`services/file_processor.py`) and the upload route
(`routers/files.py`) -/

/-- `ProcessedChunk` dataclass of `file_processor.py` (the metadata dict is
modelled by its one populated key, `chunk_index`). -/
structure ProcessedChunk where
  text : PStr
  chunk_type : String
  token_count : Nat
  chunk_index : Nat
  deriving Repr, DecidableEq

/-- `FileProcessingResult` dataclass of `file_processor.py`. -/
structure FileProcessingResult where
  use_direct_context : Bool
  full_text : Option PStr
  chunks : List ProcessedChunk
  total_size : Nat
  deriving Repr, DecidableEq

/-- `MAX_DIRECT_CONTEXT_CHARS` (≈12k tokens, safe for direct context). -/
def MAX_DIRECT_CONTEXT_CHARS : Nat := 50000

/-- `CHUNK_SIZE_CHARS` of `file_processor.py`. -/
def CHUNK_SIZE_CHARS : Nat := 1000

/-- `FileProcessor.estimate_tokens`: `len(text) // 4`. -/
def estimate_tokens (text : PStr) : Nat := text.length / 4

/-- If some element of `l` falsifies `p`, `takeWhile p` drops at least one
element. -/
theorem length_takeWhile_lt_of_mem {l : List Char} {p : Char → Bool} {a : Char}
    (ha : a ∈ l) (hpa : p a = false) : (l.takeWhile p).length < l.length := by
  induction l with
  | nil => cases ha
  | cons x xs ih =>
    by_cases hx : p x = true
    · rcases List.mem_cons.mp ha with rfl | ha'
      · rw [hpa] at hx; cases hx
      · simpa [List.takeWhile_cons, hx] using Nat.succ_lt_succ (ih ha')
    · simp [List.takeWhile_cons, Bool.of_not_eq_true hx]

/-- `re.split(r'\n\s*\n', text)`: a separator is a `'\n'`, a greedy run of
whitespace, and a final `'\n'`; the remainder resumes after the last newline
of the whitespace run. -/
def splitParaRe : PStr → List PStr
  | [] => [[]]
  | c :: cs =>
    if c = '\n' ∧ '\n' ∈ cs.takeWhile wsChar then
      let run := cs.takeWhile wsChar
      let rest := (run.reverse.takeWhile (fun d => d != '\n')).reverse ++ cs.drop run.length
      [] :: splitParaRe rest
    else
      match splitParaRe cs with
      | [] => [[c]]
      | h :: t => (c :: h) :: t
  termination_by l => l.length
  decreasing_by
    · have hmem : '\n' ∈ (List.takeWhile wsChar cs).reverse := by
        simpa using (by tauto : '\n' ∈ List.takeWhile wsChar cs)
      have h1 : ((List.takeWhile wsChar cs).reverse.takeWhile (fun d => d != '\n')).length
          < (List.takeWhile wsChar cs).reverse.length :=
        length_takeWhile_lt_of_mem hmem (by simp)
      have h2 : (List.takeWhile wsChar cs).length ≤ cs.length :=
        (List.takeWhile_sublist wsChar).length_le
      simp only [List.length_append, List.length_reverse, List.length_drop,
        List.length_cons] at h1 ⊢
      omega
    · simp only [List.length_cons]
      omega

/-- `FileProcessor.semantic_chunking(text)`: paragraph-merging chunker with a
50-word overlap, used for large (RAG) files. -/
def semantic_chunking (text : PStr) : List ProcessedChunk :=
  let paragraphs := (splitParaRe text).map pTrim |>.filter (fun p => !p.isEmpty)
  let step := fun (st : List ProcessedChunk × PStr × Nat) (para : PStr) =>
    let (chunks, current_chunk, chunk_idx) := st
    if CHUNK_SIZE_CHARS < current_chunk.length + para.length ∧ current_chunk ≠ [] then
      let emitted : ProcessedChunk :=
        { text := current_chunk, chunk_type := "semantic"
          token_count := estimate_tokens current_chunk, chunk_index := chunk_idx }
      let ws := words current_chunk
      let overlap := if 50 < ws.length then joinSp (ws.drop (ws.length - 50)) else current_chunk
      (chunks ++ [emitted], overlap ++ '\n' :: '\n' :: para, chunk_idx + 1)
    else
      if current_chunk ≠ [] then (chunks, current_chunk ++ '\n' :: '\n' :: para, chunk_idx)
      else (chunks, para, chunk_idx)
  let (chunks, current_chunk, chunk_idx) := paragraphs.foldl step ([], [], 0)
  if current_chunk ≠ [] then
    chunks ++ [{ text := current_chunk, chunk_type := "semantic"
                 token_count := estimate_tokens current_chunk, chunk_index := chunk_idx }]
  else chunks

/-- `FileProcessor.process_file` on the extracted text (text extraction from
bytes is the out-of-scope collaborator; its output is this function's
input). -/
def process_file (text : PStr) : FileProcessingResult :=
  let text_size := text.length
  if text_size ≤ MAX_DIRECT_CONTEXT_CHARS then
    { use_direct_context := true, full_text := some text, chunks := [], total_size := text_size }
  else
    { use_direct_context := false, full_text := none
      chunks := semantic_chunking text, total_size := text_size }

/-- Outcome of the `POST /files/upload` route for one file, restricted to the
fields the claims are about: the `uploaded_files.status` value finally stored,
the chunk count, whether the RAG service was invoked, and the vector index
after the request. -/
structure UploadFlowResult where
  db_status : String
  chunk_count : Nat
  rag_called : Bool
  index : List Record
  deriving Repr, DecidableEq

/-- The downstream indexing/handler block of `upload_file`
(`routers/files.py` lines 227-294), taken from the point where a
`FileProcessingResult` is in hand (the same handler logic is reachable in the
retry-indexing endpoint, lines 678-725): a file stored for direct context
skips RAG entirely and is marked `ready` with `chunk_count 0`; otherwise the
route calls `rag_service.upload_document` with `result.full_text`, marking
the row `error` if it raises (including the `full_text is None`
`AttributeError`) and `ready` otherwise.  The upload endpoint itself never
reaches this block — see `upload_file_endpoint`. -/
def upload_file_route (tok : Tokenizer) (ck : LocalChunker) (cfg : EmbedCfg)
    (p : Provider) (index : List Record) (file_id org_id user_id filename : String)
    (proc : FileProcessingResult) (call : Nat) : UploadFlowResult :=
  if proc.use_direct_context then
    { db_status := "ready", chunk_count := 0, rag_called := false, index := index }
  else
    match proc.full_text with
    | none =>
      -- upload_document(None) raises before doing anything; the route marks the file error
      { db_status := "error", chunk_count := 0, rag_called := true, index := index }
    | some txt =>
      match upload_document tok ck cfg p index file_id org_id user_id txt filename call with
      | (.error _, index') =>
        { db_status := "error", chunk_count := 0, rag_called := true, index := index' }
      | (.ok r, index') =>
        { db_status := "ready", chunk_count := r.chunk_count, rag_called := true, index := index' }

/-- `MAX_FILE_SIZE` of `routers/files.py` (200MB). -/
def MAX_FILE_SIZE : Nat := 200 * 1024 * 1024

/-- Python `await v`: succeeds with the value only when `v` is awaitable;
awaiting a plain value raises `TypeError("object X can't be used in 'await'
expression")`, modelled by the error string below. -/
def awaitResult (isCoroutine : Bool) (typeName : String) (v : α) : Except String α :=
  if isCoroutine then .ok v
  else .error ("object " ++ typeName ++ " cannot be used in an await expression")

/-- Whether `FileProcessor.process_file` is a coroutine function: it is
declared `def`, not `async def` (`file_processor.py` line 205), so awaiting
its result raises `TypeError`. -/
def process_file_is_coroutine : Bool := false

/-- Outcome of the `POST /files/upload` endpoint: an HTTP error raised before
the `uploaded_files` row is inserted (413 size limit, 400 processing
failure), or the completed flow. -/
inductive UploadEndpointResult where
  | http413 (detail : String)
  | http400 (detail : String)
  | completed (flow : UploadFlowResult)
  deriving Repr, DecidableEq

/-- The `upload_file` endpoint end to end (`routers/files.py` lines 150-294),
on the extracted text: size check, then
`result = await FileProcessor.process_file(...)` (line 175) — `process_file`
is synchronous, so the `await` raises `TypeError`, converted by the
`except Exception` at lines 180-184 into HTTP 400 before the database insert
— and only then the stored-row/indexing block (`upload_file_route`). -/
def upload_file_endpoint (tok : Tokenizer) (ck : LocalChunker) (cfg : EmbedCfg)
    (p : Provider) (index : List Record) (file_id org_id user_id filename : String)
    (text : PStr) (call : Nat) : UploadEndpointResult :=
  if MAX_FILE_SIZE < text.length then
    .http413 "File too large"
  else
    match awaitResult process_file_is_coroutine "FileProcessingResult" (process_file text) with
    | .error e => .http400 ("Failed to process file: " ++ e)
    | .ok proc =>
      .completed (upload_file_route tok ck cfg p index file_id org_id user_id filename proc call)

/-! Concrete instances used by witnesses and counterexamples -/

/-- The production embedding configuration (batch 16, 5 retries, 2s base
delay). -/
def cfgW : EmbedCfg := { batch_size := 16, max_retries := 5, retry_delay := 2 }

/-- A provider answering every call with a single correctly-indexed vector. -/
def provOne : Provider := fun _ => .ok [{ index := 0, embedding := [1] }]

/-- A provider answering every call with two items out of request order. -/
def provSwap : Provider :=
  fun _ => .ok [{ index := 1, embedding := [20] }, { index := 0, embedding := [10] }]

/-- A provider answering every call with four vectors (for the 5-chunk /
4-vector mismatch scenario). -/
def provFour : Provider :=
  fun _ => .ok [{ index := 0, embedding := [10] }, { index := 1, embedding := [20] },
                { index := 2, embedding := [30] }, { index := 3, embedding := [40] }]

/-- A provider that is rate-limited on every call. -/
def provRL : Provider := fun _ => .rateLimit

/-- A provider whose every call fails with a non-rate-limit error. -/
def provFatal : Provider := fun _ => .fatal

/-- A text of three short multi-sentence paragraphs (every sentence is one
token); chunked at `chunk_size 4` / `chunk_overlap 2` it produces a chunk of
5 tokens seeded with overlap text. -/
def exText : PStr := "a. b. c.\n\nd. e. f.\n\ng.".toList

/-- A text producing five chunks at `chunk_size 4` / `chunk_overlap 2`. -/
def exText5 : PStr :=
  "a1 a2 a3 a4\n\nb1 b2 b3 b4\n\nc1 c2 c3 c4\n\nd1 d2 d3 d4\n\ne1 e2 e3 e4".toList

/-- An indexed chunk record of tenant `(oA, uA)` for file `fA`. -/
def recA : Record :=
  { id := "fA_0", file_id := "fA", org_id := "oA", user_id := "uA", filename := "doc.txt"
    content := "shared content".toList, chunk_index := 0, token_count := 2
    page_number := none, section_header := none, content_vector := [1] }

/-- A record with identical content indexed under the other tenant
`(oB, uB)`. -/
def recB : Record :=
  { recA with id := "fB_0", file_id := "fB", org_id := "oB", user_id := "uB" }

/-- The `k`-th record of the 1001-chunk document used against the delete
claim; the ids (`'a'` repeated `k` times) are pairwise distinct. -/
def mkRec (k : Nat) : Record :=
  { id := String.mk (List.replicate k 'a'), file_id := "f", org_id := "o", user_id := "u"
    filename := "big.txt", content := ['x'], chunk_index := k, token_count := 1
    page_number := none, section_header := none, content_vector := [1] }

/-- An index holding 1001 records of one document under one tenant. -/
def idx1001 : List Record := (List.range 1001).map mkRec

/-- Placeholder chunk used as the `getD` fallback in concrete instances. -/
def defaultChunk : DocumentChunk :=
  { content := [], chunk_index := 0, token_count := 0, char_start := 0, char_end := 0 }

/-- The response items a correct provider would return for a batch whose
`k`-th requested embedding is `vs.get k`: item `k` carries index `k` and that
vector (in request order; a permutation of these models an out-of-order
response). -/
def canonicalItems (vs : List Vec) : List EmbedItem :=
  vs.enum.map fun p => { index := p.1, embedding := p.2 }

instance : IsTotal EmbedItem (fun a b => a.index ≤ b.index) :=
  ⟨fun a b => Nat.le_total a.index b.index⟩

instance : IsTrans EmbedItem (fun a b => a.index ≤ b.index) :=
  ⟨fun _ _ _ h1 h2 => Nat.le_trans h1 h2⟩

/-- Every chunk of the list carries its own position as `chunk_index`
(0-based, strictly increasing). -/
def IdxOk (cs : List DocumentChunk) : Prop :=
  ∀ i (h : i < cs.length), (cs.get ⟨i, h⟩).chunk_index = i

/-- Consecutive chunks have non-decreasing `char_start`. -/
def StartMono (cs : List DocumentChunk) : Prop :=
  cs.Chain' (fun a b => a.char_start ≤ b.char_start)

/-- `char_start` of the last chunk emitted so far (0 before any emission). -/
def lastStart (cs : List DocumentChunk) : Nat :=
  ((cs.getLast?).map (·.char_start)).getD 0

/-- Invariant of the sentence-level loop state: chunks well-indexed and
start-monotone, the running counters consistent. -/
def InvS (ss : SentState) : Prop :=
  IdxOk ss.chunks ∧ StartMono ss.chunks ∧ ss.chunk_index = ss.chunks.length ∧
  lastStart ss.chunks ≤ ss.sentence_start ∧ ss.sentence_start ≤ ss.char_position

/-- Invariant of the paragraph-level loop state. -/
def InvP (st : ChunkState) : Prop :=
  IdxOk st.chunks ∧ StartMono st.chunks ∧ st.chunk_index = st.chunks.length ∧
  lastStart st.chunks ≤ st.chunk_start_char ∧ st.chunk_start_char ≤ st.char_position

/-- Token-count invariant of the sentence loop (for the word tokenizer):
every emitted chunk and the running buffer stay within
`chunk_size + chunk_overlap` tokens, and an empty buffer counts zero. -/
def TokBoundS (ck : LocalChunker) (ss : SentState) : Prop :=
  (∀ c ∈ ss.chunks, c.token_count ≤ ck.chunk_size + ck.chunk_overlap) ∧
  ss.sentence_tokens ≤ ck.chunk_size + ck.chunk_overlap ∧
  (ss.sentence_chunk = [] → ss.sentence_tokens = 0)

/-- Token-count invariant of the paragraph loop. -/
def TokBoundP (ck : LocalChunker) (st : ChunkState) : Prop :=
  (∀ c ∈ st.chunks, c.token_count ≤ ck.chunk_size + ck.chunk_overlap) ∧
  st.current_tokens ≤ ck.chunk_size + ck.chunk_overlap ∧
  (st.current_chunk = [] → st.current_tokens = 0)

/-! Theorems -/

/-- Claim C8, counterexample.  `LocalChunker.__init__` with
`chunk_overlap = chunk_size = 800` does not fail: it returns a usable
instance storing both values, so "overlap ≥ chunk size is rejected at
construction" is false. -/
theorem C8_init_no_validation_counterexample :
    800 ≤ 800 ∧ ¬ ∃ e, LocalChunker.init 800 800 = Except.error e := by
  refine ⟨le_refl _, ?_⟩
  rintro ⟨e, h⟩
  simp [LocalChunker.init] at h

/-- Claim C8, amended.  `LocalChunker(chunk_size, chunk_overlap)` performs no
validation at all: for every `chunk_size` and `chunk_overlap` (including
`chunk_overlap ≥ chunk_size`) construction succeeds and stores both values
unchanged. -/
theorem C8_init_stores_config (chunk_size chunk_overlap : Nat) :
    LocalChunker.init chunk_size chunk_overlap
      = .ok { chunk_size := chunk_size, chunk_overlap := chunk_overlap } := rfl

/-- Claim C10, counterexample.  With one indexed chunk, a succeeding first
search and a failing second (count-refinement) search, `get_document_status`
returns `indexed = true`, `chunk_count = 1` — an internal step failed, yet the
result is not `indexed = False`/`chunk_count = 0` with an error note. -/
theorem C10_status_inner_failure_counterexample :
    ¬ ((get_document_status [recA] "fA" "oA" "uA" none (some "boom")).indexed = false
       ∧ (get_document_status [recA] "fA" "oA" "uA" none (some "boom")).chunk_count = 0) := by
  decide

/-- Claim C10, amended.  `get_document_status` never propagates an exception
(it is a total function of the two oracle outcomes): when the initial search
fails it returns `indexed = False`, `chunk_count = 0` and a note describing
the error; a failure of the secondary counting search is swallowed by the
bare `except: pass`, and the result falls back to the first search's count
(at most 1 because of `top=1`); with both searches succeeding the count is
that of the `top=1000` search. -/
theorem C10_status_never_raises (index : List Record) (file_id org_id user_id : String)
    (e : String) (fail2 : Option String) :
    get_document_status index file_id org_id user_id (some e) fail2
      = { indexed := false, chunk_count := 0, note := "Error checking status: " ++ e } ∧
    (get_document_status index file_id org_id user_id none (some e)).chunk_count
      = ((index.filter (matchesDoc file_id org_id user_id)).take 1).length ∧
    (get_document_status index file_id org_id user_id none none).chunk_count
      = ((index.filter (matchesDoc file_id org_id user_id)).take 1000).length := by
  refine ⟨rfl, ?_, ?_⟩ <;> simp [get_document_status]

/-- Claim C2.  If the embedding call for a non-empty chunk list succeeds but
returns a vector count different from the chunk count, `upload_document`
raises the count-mismatch error with the vector index exactly as before the
call (zero records upserted), and the upload route then marks the file's
database row `status = 'error'`. -/
theorem C2_upload_mismatch_aborts (tok : Tokenizer) (ck : LocalChunker)
    (cfg : EmbedCfg) (p : Provider) (index : List Record)
    (file_id org_id user_id filename : String) (content : PStr) (call : Nat)
    (es : List Vec)
    (hne : chunk_text tok ck content ≠ [])
    (hok : (generate_embeddings_bulk cfg p
            ((chunk_text tok ck content).map (·.content)) call).outcome = .ok es)
    (hlen : es.length ≠ (chunk_text tok ck content).length) :
    upload_document tok ck cfg p index file_id org_id user_id content filename call
      = (.error .countMismatch, index) ∧
    upload_file_route tok ck cfg p index file_id org_id user_id filename
        { use_direct_context := false, full_text := some content, chunks := []
          total_size := content.length } call
      = { db_status := "error", chunk_count := 0, rag_called := true, index := index } := by
  have hmain :
      upload_document tok ck cfg p index file_id org_id user_id content filename call
        = (.error .countMismatch, index) := by
    unfold upload_document
    rw [if_neg (by simpa [List.isEmpty_iff] using hne)]
    simp only [hok]
    simp [hlen]
  refine ⟨hmain, ?_⟩
  unfold upload_file_route
  simp only [hmain]
  rfl

/-- Claim C2, witness: the spec's 5-chunk / 4-vector scenario, concretely.
`exText5` chunks into 5 chunks at `chunk_size 4`/`chunk_overlap 2`, the
provider returns 4 vectors, and the upload aborts with the index (here
`[recA]`) unchanged and the route status `error`. -/
theorem C2_upload_mismatch_aborts_witness :
    upload_document wordTok ⟨4, 2⟩ cfgW provFour [recA] "f1" "o1" "u1" exText5 "big.txt" 0
      = (.error .countMismatch, [recA]) ∧
    upload_file_route wordTok ⟨4, 2⟩ cfgW provFour [recA] "f1" "o1" "u1" "big.txt"
        { use_direct_context := false, full_text := some exText5, chunks := []
          total_size := exText5.length } 0
      = { db_status := "error", chunk_count := 0, rag_called := true, index := [recA] } :=
  C2_upload_mismatch_aborts wordTok ⟨4, 2⟩ cfgW provFour [recA] "f1" "o1" "u1" "big.txt" exText5 0
    [[10], [20], [30], [40]]
    (by decide)
    (by rfl)
    (by decide)

/-- Claim C9, code bug.  The claim (with the spec and the repository's own
router tests) says a file whose extracted text is below the 50,000-character
threshold bypasses chunking/embedding and transitions directly to `ready`
with `chunk_count = 0`.  The service layer indeed computes the direct-context
result, and the handler block, given that result, would mark the row `ready`
with `chunk_count 0`, no RAG call, index untouched — but the endpoint awaits
the synchronous `process_file` (`files.py` line 175), which raises
`TypeError` ("object FileProcessingResult can't be used in 'await'
expression"), caught at lines 180-184 into HTTP 400 before the
`uploaded_files` row is inserted: evaluated at the failing input (a
2-character text file), the upload never reaches `ready`. -/
theorem C9_small_file_await_type_error :
    process_file ['h', 'i']
      = { use_direct_context := true, full_text := some ['h', 'i'], chunks := []
          total_size := 2 } ∧
    upload_file_route wordTok ⟨800, 200⟩ cfgW provOne [recA] "f1" "o1" "u1" "a.txt"
        (process_file ['h', 'i']) 0
      = { db_status := "ready", chunk_count := 0, rag_called := false, index := [recA] } ∧
    upload_file_endpoint wordTok ⟨800, 200⟩ cfgW provOne [recA] "f1" "o1" "u1" "a.txt"
        ['h', 'i'] 0
      = .http400 ("Failed to process file: " ++
          "object FileProcessingResult cannot be used in an await expression") :=
  ⟨rfl, rfl, rfl⟩

/-- Claim C1.  Every chunk returned by `search_documents(query, orgA, userA,
file_ids, top_k)` is the projection of an index record carrying
`org_id = orgA` and `user_id = userA`: the tenant filter is on every search,
so a chunk tagged with another tenant's `org_id`/`user_id` is never returned,
whatever the index contents (in particular for two identically-contented
files of different tenants). -/
theorem C1_search_tenant_isolation (cfg : EmbedCfg) (p : Provider)
    (sim : Vec → Vec → Int) (index : List Record) (query : PStr)
    (orgA userA : String) (file_ids : List String) (top_k call : Nat)
    (cs : List SearchChunk)
    (h : search_documents cfg p sim index query orgA userA file_ids top_k call
          = .ok cs) :
    ∀ c ∈ cs, ∃ r ∈ index, r.org_id = orgA ∧ r.user_id = userA ∧
      ∃ s, c = projRecord s r := by
  unfold search_documents at h
  cases hq : (generate_embedding cfg p query call).1 with
  | error e => rw [hq] at h; cases h
  | ok qvec =>
    rw [hq] at h
    injection h with h
    subst h
    intro c hc
    obtain ⟨r, hr, rfl⟩ := List.mem_map.mp hc
    have hr1 := List.mem_of_mem_take hr
    have hr2 := (List.perm_insertionSort
      (fun a b : Record => sim qvec b.content_vector ≤ sim qvec a.content_vector) _).subset hr1
    obtain ⟨hrin, hm⟩ := List.mem_filter.mp hr2
    simp only [matchesSearch, Bool.and_eq_true, beq_iff_eq] at hm
    exact ⟨r, hrin, hm.1.1, hm.1.2, _, rfl⟩

/-- Claim C1, witness: an index holding the same content under tenants
`(oA, uA)` and `(oB, uB)`; the search as `(oA, uA)` returns exactly the chunk
of `recA`, and the record it came from carries `org_id = oA`,
`user_id = uA`. -/
theorem C1_search_tenant_isolation_witness :
    recA.org_id = "oA" ∧ recA.user_id = "uA" := by
  obtain ⟨r, hr, h1, h2, s, hs⟩ :=
    C1_search_tenant_isolation cfgW provOne (fun _ _ => 0) [recA, recB]
      "shared content".toList "oA" "uA" [] 15 0 [projRecord 0 recA] (by rfl)
      (projRecord 0 recA) (List.mem_singleton.mpr rfl)
  rcases List.mem_cons.mp hr with rfl | hr2
  · exact ⟨h1, h2⟩
  · rw [List.mem_singleton.mp hr2] at hs
    have hff : ("fA" : String) = "fB" := congrArg SearchChunk.file_id hs
    exact absurd hff (by decide)

/-- Retry loop under permanent rate limiting: starting at `attempt` with
`fuel = max_retries - attempt`, each retry sleeps `retry_delay * attempt` and
after the last admissible attempt the batch fails with `rateLimited`. -/
theorem runBatch_always_rateLimited (cfg : EmbedCfg) (p : Provider)
    (h : ∀ k, p k = .rateLimit) :
    ∀ fuel attempt call, attempt + fuel = cfg.max_retries →
      runBatch cfg p call attempt fuel
        = { outcome := .error .rateLimited, calls := call + fuel + 1,
            delays := (List.range fuel).map
              (fun i => cfg.retry_delay * (((attempt + 1 + i : Nat)) : ℚ)) } := by
  intro fuel
  induction fuel with
  | zero =>
    intro attempt call hat
    unfold runBatch
    rw [h call]
    simp only []
    rw [if_pos (by omega)]
    simp
  | succ f ih =>
    intro attempt call hat
    unfold runBatch
    rw [h call]
    simp only []
    rw [if_neg (by omega)]
    rw [ih (attempt + 1) (call + 1) (by omega)]
    simp only [BatchResult.mk.injEq]
    refine ⟨by trivial, by omega, ?_⟩
    rw [List.range_succ_eq_map, List.map_cons, List.map_map]
    refine List.cons_eq_cons.mpr ⟨by norm_num, ?_⟩
    apply List.map_congr_left
    intro i _
    have hn : attempt + 1 + 1 + i = attempt + 1 + (i + 1) := by omega
    simp [Function.comp, hn]

/-- Claim C4.  A batch that is rate-limited on every attempt is retried with
delays `retry_delay × 1, …, retry_delay × max_retries` (`delay = baseDelay ×
attempt`), and after `max_retries` retries (`max_retries + 1` calls) the whole
embedding call fails with `rateLimited` — the bulk call returns an error, not
a partial vector list.  A non-rate-limit error aborts the batch immediately:
one call, no delays, and the whole bulk call fails with the provider error. -/
theorem C4_rate_limit_retry_policy (cfg : EmbedCfg) (pRL pF : Provider)
    (call : Nat) (texts : List PStr)
    (hRL : ∀ k, pRL k = .rateLimit) (hF : pF call = .fatal) (hne : texts ≠ []) :
    runBatch cfg pRL call 0 cfg.max_retries
      = { outcome := .error .rateLimited, calls := call + cfg.max_retries + 1,
          delays := (List.range cfg.max_retries).map
            (fun i => cfg.retry_delay * (((i + 1 : Nat)) : ℚ)) } ∧
    (generate_embeddings_bulk cfg pRL texts call).outcome = .error .rateLimited ∧
    runBatch cfg pF call 0 cfg.max_retries
      = { outcome := .error .provider, calls := call + 1, delays := [] } ∧
    (generate_embeddings_bulk cfg pF texts call).outcome = .error .provider := by
  have hbatch : runBatch cfg pRL call 0 cfg.max_retries
      = { outcome := .error .rateLimited, calls := call + cfg.max_retries + 1,
          delays := (List.range cfg.max_retries).map
            (fun i => cfg.retry_delay * (((i + 1 : Nat)) : ℚ)) } := by
    rw [runBatch_always_rateLimited cfg pRL hRL cfg.max_retries 0 call (by omega)]
    simp only [BatchResult.mk.injEq]
    refine ⟨by trivial, by trivial, List.map_congr_left (fun i _ => ?_)⟩
    push_cast
    ring
  have hfatal : runBatch cfg pF call 0 cfg.max_retries
      = { outcome := .error .provider, calls := call + 1, delays := [] } := by
    unfold runBatch
    rw [hF]
  obtain ⟨x, xs, rfl⟩ : ∃ x xs, texts = x :: xs := by
    cases texts with
    | nil => exact absurd rfl hne
    | cons x xs => exact ⟨x, xs, rfl⟩
  refine ⟨hbatch, ?_, hfatal, ?_⟩
  · show (runBatches cfg pRL (toBatches (max 1 cfg.batch_size) (x :: xs)) call).outcome
      = .error .rateLimited
    show (runBatches cfg pRL (((x :: xs).take _) :: _) call).outcome = .error .rateLimited
    unfold runBatches
    rw [hbatch]
  · show (runBatches cfg pF (toBatches (max 1 cfg.batch_size) (x :: xs)) call).outcome
      = .error .provider
    show (runBatches cfg pF (((x :: xs).take _) :: _) call).outcome = .error .provider
    unfold runBatches
    rw [hfatal]

/-- Claim C4, witness at the production configuration (5 retries, base delay 2):
delays `2,4,6,8,10`, then failure after 6 calls; a fatal first response fails
after exactly 1 call with no delay. -/
theorem C4_rate_limit_retry_policy_witness :
    runBatch cfgW provRL 0 0 cfgW.max_retries
      = { outcome := .error .rateLimited, calls := 0 + cfgW.max_retries + 1,
          delays := (List.range cfgW.max_retries).map
            (fun i => cfgW.retry_delay * (((i + 1 : Nat)) : ℚ)) } ∧
    (generate_embeddings_bulk cfgW provRL [['a']] 0).outcome = .error .rateLimited ∧
    runBatch cfgW provFatal 0 0 cfgW.max_retries
      = { outcome := .error .provider, calls := 0 + 1, delays := [] } ∧
    (generate_embeddings_bulk cfgW provFatal [['a']] 0).outcome = .error .provider :=
  C4_rate_limit_retry_policy cfgW provRL provFatal 0 [['a']]
    (fun _ => rfl) rfl (by decide)

/-- Two permuted lists that are both sorted by the item index, with no
duplicate index, are equal. -/
theorem eq_of_perm_sorted_indices {l₁ l₂ : List EmbedItem}
    (hp : l₁.Perm l₂)
    (hs₁ : l₁.Pairwise (fun a b => a.index ≤ b.index))
    (hs₂ : l₂.Pairwise (fun a b => a.index ≤ b.index))
    (hn : (l₂.map (·.index)).Nodup) : l₁ = l₂ := by
  have hn₁ : (l₁.map (·.index)).Nodup := ((hp.map (·.index)).nodup_iff).mpr hn
  have hlt₁ : l₁.Sorted (fun a b => a.index < b.index) :=
    (hs₁.and (List.pairwise_map.mp hn₁)).imp (fun h => lt_of_le_of_ne h.1 h.2)
  have hlt₂ : l₂.Sorted (fun a b => a.index < b.index) :=
    (hs₂.and (List.pairwise_map.mp hn)).imp (fun h => lt_of_le_of_ne h.1 h.2)
  exact @List.eq_of_perm_of_sorted _ (fun a b => a.index < b.index)
    ⟨fun _ _ h1 h2 => absurd h2 (Nat.lt_asymm h1)⟩ _ _ hp hlt₁ hlt₂

/-- The canonical (request-ordered) response items are sorted by index. -/
theorem canonicalItems_sorted (vs : List Vec) :
    (canonicalItems vs).Pairwise (fun a b => a.index ≤ b.index) := by
  unfold canonicalItems
  rw [List.pairwise_map]
  refine List.pairwise_iff_getElem.mpr fun i j hi hj hij => ?_
  rw [List.getElem_enum, List.getElem_enum]
  exact Nat.le_of_lt hij

/-- The canonical response items carry pairwise distinct indices. -/
theorem canonicalItems_nodup (vs : List Vec) :
    ((canonicalItems vs).map (·.index)).Nodup := by
  unfold canonicalItems
  rw [List.map_map]
  have : ((fun x : EmbedItem => x.index) ∘ fun p : Nat × Vec =>
      ({ index := p.1, embedding := p.2 } : EmbedItem)) = Prod.fst := rfl
  rw [this, List.enum_map_fst]
  exact List.nodup_range _

/-- Extracting the vectors of the canonical response items recovers the
request-ordered vector list. -/
theorem canonicalItems_embeddings (vs : List Vec) :
    (canonicalItems vs).map (·.embedding) = vs := by
  unfold canonicalItems
  rw [List.map_map]
  have : ((fun x : EmbedItem => x.embedding) ∘ fun p : Nat × Vec =>
      ({ index := p.1, embedding := p.2 } : EmbedItem)) = Prod.snd := rfl
  rw [this, List.enum_map_snd]

/-- Re-sorting an out-of-order batch response by the provider's per-item
index recovers the request-ordered vectors. -/
theorem sortedEmbeddings_of_perm {items : List EmbedItem} {vs : List Vec}
    (hp : items.Perm (canonicalItems vs)) : sortedEmbeddings items = vs := by
  unfold sortedEmbeddings
  have heq : items.insertionSort (fun a b => a.index ≤ b.index) = canonicalItems vs :=
    eq_of_perm_sorted_indices
      ((List.perm_insertionSort (fun a b : EmbedItem => a.index ≤ b.index) items).trans hp)
      (List.sorted_insertionSort (fun a b : EmbedItem => a.index ≤ b.index) items)
      (canonicalItems_sorted vs) (canonicalItems_nodup vs)
  rw [heq, canonicalItems_embeddings]

/-- Concatenating the batches recovers the original list. -/
theorem toBatchesGo_flatten (bs : Nat) :
    ∀ (fuel : Nat) (l : List α), l.length ≤ fuel →
      (toBatchesGo bs fuel l).flatten = l := by
  intro fuel
  induction fuel with
  | zero =>
    intro l hl
    cases l with
    | nil => rfl
    | cons x xs => simp at hl
  | succ f ih =>
    intro l hl
    cases l with
    | nil => rfl
    | cons x xs =>
      show ((x :: xs).take (max 1 bs) :: toBatchesGo bs f ((x :: xs).drop (max 1 bs))).flatten
        = x :: xs
      have hm : 1 ≤ max 1 bs := Nat.le_max_left 1 bs
      rw [List.flatten_cons, ih _ (by simp only [List.length_drop, List.length_cons] at hl ⊢; omega),
        List.take_append_drop]

/-- If every batch receives a (possibly out-of-order) permutation of its
request-indexed embeddings, the sequential batch loop succeeds with the
batch-ordered concatenation, one call per batch and no delays. -/
theorem runBatches_all_ok (cfg : EmbedCfg) (p : Provider) (E : PStr → Vec) :
    ∀ (batches : List (List PStr)) (call : Nat),
      (∀ j, j < batches.length → ∃ items, p (call + j) = .ok items ∧
        items.Perm (canonicalItems ((batches.getD j []).map E))) →
      runBatches cfg p batches call
        = { outcome := .ok ((batches.map (List.map E)).flatten),
            calls := call + batches.length, delays := [] } := by
  intro batches
  induction batches with
  | nil =>
    intro call _
    simp [runBatches]
  | cons b bs ih =>
    intro call h
    obtain ⟨items, hpc, hperm⟩ := h 0 (by simp)
    have hpv : sortedEmbeddings items = b.map E :=
      sortedEmbeddings_of_perm (by simpa using hperm)
    have hb : runBatch cfg p call 0 cfg.max_retries
        = { outcome := .ok (b.map E), calls := call + 1, delays := [] } := by
      unfold runBatch
      rw [show p call = .ok items by simpa using hpc]
      simp only [hpv]
    have hrest := ih (call + 1) (fun j hj => by
      obtain ⟨its, h1, h2⟩ := h (j + 1) (by simpa using Nat.succ_lt_succ hj)
      refine ⟨its, ?_, by simpa using h2⟩
      rw [show call + 1 + j = call + (j + 1) by omega]
      exact h1)
    show runBatches cfg p (b :: bs) call = _
    unfold runBatches
    rw [hb]
    simp only [hrest]
    simp only [BatchResult.mk.injEq, List.map_cons, List.flatten_cons]
    refine ⟨by trivial, ?_, by trivial⟩
    simp only [List.length_cons]
    omega

/-- Claim C3.  For every list of `N` input texts, if the provider answers each
batch with a permutation (any order) of the correctly-indexed embeddings of
that batch's texts, `_generate_embeddings_bulk` returns exactly `N` vectors
with vector `k` the embedding of text `k`: within every batch the response is
re-sorted by the per-item index, and batches are concatenated in order. -/
theorem C3_embedding_order_preservation (cfg : EmbedCfg) (p : Provider)
    (texts : List PStr) (E : PStr → Vec) (call : Nat)
    (h : ∀ j, j < (toBatches (max 1 cfg.batch_size) texts).length →
        ∃ items, p (call + j) = .ok items ∧
          items.Perm (canonicalItems
            (((toBatches (max 1 cfg.batch_size) texts).getD j []).map E))) :
    (generate_embeddings_bulk cfg p texts call).outcome = .ok (texts.map E) := by
  cases texts with
  | nil => rfl
  | cons x xs =>
    show (runBatches cfg p (toBatches (max 1 cfg.batch_size) (x :: xs)) call).outcome
      = .ok ((x :: xs).map E)
    rw [runBatches_all_ok cfg p E _ call h]
    show Except.ok _ = _
    rw [← List.map_flatten]
    rw [show (toBatches (max 1 cfg.batch_size) (x :: xs)).flatten = x :: xs from
      toBatchesGo_flatten _ _ _ (le_refl _)]

/-- Claim C3, witness: a single batch of two texts answered out of order
(`index 1` first) still yields vector 0 = embedding of text 0, vector 1 =
embedding of text 1. -/
theorem C3_embedding_order_preservation_witness :
    (generate_embeddings_bulk cfgW provSwap [['a'], ['b']] 0).outcome
      = .ok ([['a'], ['b']].map (fun t => if t = ['a'] then ([10] : Vec) else [20])) :=
  C3_embedding_order_preservation cfgW provSwap [['a'], ['b']]
    (fun t => if t = ['a'] then ([10] : Vec) else [20]) 0
    (by
      intro j hj
      match j with
      | 0 =>
        exact ⟨[{ index := 1, embedding := [20] }, { index := 0, embedding := [10] }],
          rfl, by decide⟩
      | j + 1 =>
        rw [show (toBatches (max 1 cfgW.batch_size) [['a'], ['b']]).length = 1 from rfl] at hj
        omega)

/-- Deleting the collected ids batch by batch removes exactly the records
whose id occurs in some batch. -/
theorem foldl_delete_batches (batches : List (List String)) :
    ∀ idx : List Record,
      batches.foldl (fun acc batch => acc.filter (fun r => !batch.contains r.id)) idx
        = idx.filter (fun r => !(batches.flatten).contains r.id) := by
  induction batches with
  | nil =>
    intro idx
    simp
  | cons b bs ih =>
    intro idx
    show bs.foldl _ (idx.filter fun r => !b.contains r.id) = _
    rw [ih, List.filter_filter]
    refine List.filter_congr fun r _ => ?_
    rw [List.flatten_cons]
    rw [show (b ++ bs.flatten).contains r.id = (b.contains r.id || (bs.flatten).contains r.id) by
      rw [Bool.eq_iff_iff]; simp [List.elem_iff]]
    cases hb : b.contains r.id <;> cases hf : (bs.flatten).contains r.id <;> simp

/-- The whole-index removal performed by `delete_document` once the ids are
collected: exactly the records whose id was collected disappear. -/
theorem delete_document_removal (index : List Record) (f o u : String)
    (hne : ¬ (((index.filter (matchesDoc f o u)).take 1000).map (·.id)).isEmpty = true) :
    (delete_document index f o u).1
      = index.filter
          (fun r => !(((index.filter (matchesDoc f o u)).take 1000).map (·.id)).contains r.id) := by
  simp only [delete_document]
  rw [if_neg (by simpa using hne)]
  rw [foldl_delete_batches]
  rw [show (toBatches 100 (((index.filter (matchesDoc f o u)).take 1000).map (·.id))).flatten
      = ((index.filter (matchesDoc f o u)).take 1000).map (·.id) from
    toBatchesGo_flatten _ _ _ (le_refl _)]

/-- Claim C5, counterexample.  With 1001 indexed chunks of one file under one
tenant, `delete_document` collects ids through a search capped at `top=1000`
and therefore leaves a matching record in the index: "deletes every record
matching the filter" is false. -/
theorem C5_delete_top1000_counterexample :
    ¬ ((delete_document idx1001 "f" "o" "u").1.filter (matchesDoc "f" "o" "u") = []) := by
  intro hempty
  have hmatch : ∀ k : Nat, matchesDoc "f" "o" "u" (mkRec k) = true := fun _ => rfl
  have hall : idx1001.filter (matchesDoc "f" "o" "u") = idx1001 := by
    refine List.filter_eq_self.mpr fun r hr => ?_
    simp only [idx1001] at hr
    obtain ⟨k, _, rfl⟩ := List.mem_map.mp hr
    exact hmatch k
  have hids : ((idx1001.filter (matchesDoc "f" "o" "u")).take 1000).map (·.id)
      = (List.range 1000).map (fun k => (mkRec k).id) := by
    rw [hall]
    simp only [idx1001]
    rw [← List.map_take, List.take_range, show (1000 : Nat) ⊓ 1001 = 1000 by norm_num,
      List.map_map]
    rfl
  have hne : ¬ (((idx1001.filter (matchesDoc "f" "o" "u")).take 1000).map (·.id)).isEmpty
      = true := by
    rw [hids]
    intro h
    rw [List.isEmpty_iff, List.map_eq_nil_iff] at h
    have := congrArg List.length h
    simp at this
  have hnotin : (mkRec 1000).id ∉ (List.range 1000).map (fun k => (mkRec k).id) := by
    intro hin
    obtain ⟨k, hk, hkeq⟩ := List.mem_map.mp hin
    simp only [mkRec] at hkeq
    have hlen := congrArg (fun s : String => s.data.length) hkeq
    simp only [List.length_replicate] at hlen
    exact absurd (List.mem_range.mp hk) (by omega)
  have hmem : mkRec 1000 ∈ (delete_document idx1001 "f" "o" "u").1 := by
    rw [delete_document_removal idx1001 "f" "o" "u" hne]
    rw [List.mem_filter]
    refine ⟨?_, ?_⟩
    · simp only [idx1001]
      exact List.mem_map.mpr ⟨1000, List.mem_range.mpr (by norm_num), rfl⟩
    · rw [hids]
      simpa [List.elem_iff] using hnotin
  exact (List.filter_eq_nil_iff.mp hempty _ hmem) (hmatch 1000)

/-- In the non-empty branch, the count returned by `delete_document` is the
number of records removed from the index. -/
theorem delete_document_count (index : List Record) (f o u : String)
    (hne : ¬ (((index.filter (matchesDoc f o u)).take 1000).map (·.id)).isEmpty = true) :
    (delete_document index f o u).2
      = index.length - (delete_document index f o u).1.length := by
  simp only [delete_document]
  rw [if_neg (by simpa using hne)]

/-- Claim C5, amended.  When the ids in the index are pairwise distinct (they
are the collection key) and at most 1000 records match, `delete_document`
deletes exactly the records matching `file_id ∧ org_id ∧ user_id` (their
count is returned), deleting zero records is success, and a second identical
call is a no-op: it succeeds, deletes zero records and leaves the index
unchanged.  With more than 1000 matching records only the 1000 collected ids
are deleted. -/
theorem C5_delete_filter_and_idempotent (index : List Record) (f o u : String)
    (hn : (index.map (·.id)).Nodup)
    (hle : (index.filter (matchesDoc f o u)).length ≤ 1000) :
    (delete_document index f o u).1 = index.filter (fun r => !(matchesDoc f o u r)) ∧
    (delete_document index f o u).2 = (index.filter (matchesDoc f o u)).length ∧
    (delete_document (delete_document index f o u).1 f o u).1
      = (delete_document index f o u).1 ∧
    (delete_document (delete_document index f o u).1 f o u).2 = 0 := by
  have htake : (index.filter (matchesDoc f o u)).take 1000 = index.filter (matchesDoc f o u) :=
    List.take_of_length_le hle
  have hnoop : ∀ Y : List Record, Y.filter (matchesDoc f o u) = [] →
      delete_document Y f o u = (Y, 0) := by
    intro Y hY
    simp only [delete_document]
    rw [if_pos (by simp [hY])]
  have hmain : (delete_document index f o u).1
      = index.filter (fun r => !(matchesDoc f o u r)) := by
    by_cases hz : ((index.filter (matchesDoc f o u)).map (·.id)).isEmpty = true
    · have hnil : index.filter (matchesDoc f o u) = [] :=
        List.map_eq_nil_iff.mp (List.isEmpty_iff.mp hz)
      rw [hnoop index hnil]
      have hkeep : ∀ r ∈ index, ¬ matchesDoc f o u r = true := List.filter_eq_nil_iff.mp hnil
      exact (List.filter_eq_self.mpr fun r hr => by simp [hkeep r hr]).symm
    · rw [delete_document_removal index f o u (by rw [htake]; exact hz)]
      rw [htake]
      refine List.filter_congr fun r hr => ?_
      have hcm : ((index.filter (matchesDoc f o u)).map (·.id)).contains r.id
          = matchesDoc f o u r := by
        rw [Bool.eq_iff_iff, List.elem_iff]
        constructor
        · intro hin
          obtain ⟨r2, hr2, hid⟩ := List.mem_map.mp hin
          obtain ⟨hr2mem, hr2match⟩ := List.mem_filter.mp hr2
          rwa [List.inj_on_of_nodup_map hn hr hr2mem hid.symm]
        · intro hm
          exact List.mem_map.mpr ⟨r, List.mem_filter.mpr ⟨hr, hm⟩, rfl⟩
      rw [hcm]
  have hsplit := List.length_eq_length_filter_add (l := index) (matchesDoc f o u)
  have hsub : (index.filter (fun r => !(matchesDoc f o u r))).length
      = index.length - (index.filter (matchesDoc f o u)).length := by
    omega
  have hcount : (delete_document index f o u).2
      = (index.filter (matchesDoc f o u)).length := by
    by_cases hz : ((index.filter (matchesDoc f o u)).map (·.id)).isEmpty = true
    · have hnil : index.filter (matchesDoc f o u) = [] :=
        List.map_eq_nil_iff.mp (List.isEmpty_iff.mp hz)
      rw [hnoop index hnil, hnil]
      rfl
    · rw [delete_document_count index f o u (by rw [htake]; simpa using hz), hmain, hsub]
      have hlf := List.length_filter_le (matchesDoc f o u) index
      omega
  have hsecond_nil : (delete_document index f o u).1.filter (matchesDoc f o u) = [] := by
    rw [hmain, List.filter_filter]
    refine List.filter_eq_nil_iff.mpr fun r _ => ?_
    cases h : matchesDoc f o u r <;> simp [h]
  have hsecond := hnoop _ hsecond_nil
  exact ⟨hmain, hcount, by rw [hsecond], by rw [hsecond]⟩

/-- Claim C5, witness for the amended theorem: a two-record index with one
matching record; the first delete removes exactly it, and an identical second
call succeeds, deleting zero records. -/
theorem C5_delete_filter_and_idempotent_witness :
    (delete_document [recA, recB] "fA" "oA" "uA").1
      = [recA, recB].filter (fun r => !(matchesDoc "fA" "oA" "uA" r)) ∧
    (delete_document [recA, recB] "fA" "oA" "uA").2
      = ([recA, recB].filter (matchesDoc "fA" "oA" "uA")).length ∧
    (delete_document (delete_document [recA, recB] "fA" "oA" "uA").1 "fA" "oA" "uA").1
      = (delete_document [recA, recB] "fA" "oA" "uA").1 ∧
    (delete_document (delete_document [recA, recB] "fA" "oA" "uA").1 "fA" "oA" "uA").2 = 0 :=
  C5_delete_filter_and_idempotent [recA, recB] "fA" "oA" "uA" (by decide) (by decide)

/-- Appending a chunk makes it the last-start reference. -/
theorem lastStart_append (cs : List DocumentChunk) (c : DocumentChunk) :
    lastStart (cs ++ [c]) = c.char_start := by
  unfold lastStart
  rw [List.getLast?_concat]
  rfl

/-- Appending a chunk indexed by the current length preserves correct
indexing. -/
theorem IdxOk_append {cs : List DocumentChunk} {c : DocumentChunk} (h : IdxOk cs)
    (hc : c.chunk_index = cs.length) : IdxOk (cs ++ [c]) := by
  intro i hi
  rw [List.length_append, List.length_singleton] at hi
  by_cases hlt : i < cs.length
  · rw [List.get_append _ hlt]
    exact h i hlt
  · have : i = cs.length := by omega
    subst this
    rw [List.get_append_right] <;> simp [hc]

/-- Appending a chunk starting no earlier than the last one preserves
start-monotonicity. -/
theorem StartMono_append {cs : List DocumentChunk} {c : DocumentChunk} (h : StartMono cs)
    (hge : lastStart cs ≤ c.char_start) : StartMono (cs ++ [c]) := by
  refine List.chain'_append.mpr ⟨h, List.chain'_singleton c, fun x hx y hy => ?_⟩
  simp only [List.head?_cons, Option.mem_def, Option.some.injEq] at hy
  subst hy
  unfold lastStart at hge
  rw [hx] at hge
  simpa using hge

/-- One sentence step preserves the sentence-loop invariant. -/
theorem stepSent_inv (tok : Tokenizer) (ck : LocalChunker) (header : Option PStr)
    (ss : SentState) (s : PStr) (h : InvS ss) : InvS (stepSent tok ck header ss s) := by
  obtain ⟨h1, h2, h3, h4, h5⟩ := h
  unfold stepSent
  dsimp only
  by_cases hg : ck.chunk_size < ss.sentence_tokens + (tok.encode s).length ∧
      ss.sentence_chunk ≠ []
  · rw [if_pos hg]
    refine ⟨IdxOk_append h1 h3, StartMono_append h2 h4, by simp [h3], ?_, ?_⟩
    · rw [lastStart_append]
      exact h5
    · dsimp only
      omega
  · rw [if_neg hg]
    exact ⟨h1, h2, h3, h4, by dsimp only; omega⟩

/-- The whole sentence loop preserves the invariant. -/
theorem foldl_stepSent_inv (tok : Tokenizer) (ck : LocalChunker) (header : Option PStr)
    (sentences : List PStr) :
    ∀ (s0 : SentState), InvS s0 →
      InvS (sentences.foldl (stepSent tok ck header) s0) := by
  induction sentences with
  | nil => exact fun s0 h => h
  | cons s rest ih => exact fun s0 h => ih _ (stepSent_inv tok ck header s0 s h)

/-- Flushing the pending paragraph buffer preserves the paragraph-loop
invariant. -/
theorem flushCurrent_inv (header : Option PStr) (st : ChunkState) (h : InvP st) :
    InvP (flushCurrent header st) := by
  obtain ⟨h1, h2, h3, h4, h5⟩ := h
  unfold flushCurrent
  by_cases hc : st.current_chunk ≠ []
  · rw [if_pos hc]
    refine ⟨IdxOk_append h1 h3, StartMono_append h2 h4, by simp [h3], ?_, h5⟩
    rw [lastStart_append]
  · rw [if_neg hc]
    exact ⟨h1, h2, h3, h4, h5⟩

/-- Entering the sentence loop turns the paragraph invariant into the
sentence invariant. -/
theorem sentLoopInit_inv (st : ChunkState) (h : InvP st) : InvS (sentLoopInit st) :=
  ⟨h.1, h.2.1, h.2.2.1, le_trans h.2.2.2.1 h.2.2.2.2, le_refl _⟩

/-- Saving the remaining sentences preserves the sentence invariant. -/
theorem sentFinal_inv (header : Option PStr) (s : SentState) (h : InvS s) :
    InvS (sentFinal header s) := by
  obtain ⟨h1, h2, h3, h4, h5⟩ := h
  unfold sentFinal
  by_cases hc : s.sentence_chunk ≠ []
  · rw [if_pos hc]
    refine ⟨IdxOk_append h1 h3, StartMono_append h2 h4, by simp [h3], ?_, h5⟩
    rw [lastStart_append]
  · rw [if_neg hc]
    exact ⟨h1, h2, h3, h4, h5⟩

/-- One paragraph step preserves the paragraph-loop invariant. -/
theorem stepPara_inv (tok : Tokenizer) (ck : LocalChunker) (st : ChunkState)
    (para : PStr) (h : InvP st) : InvP (stepPara tok ck st para) := by
  obtain ⟨h1, h2, h3, h4, h5⟩ := h
  unfold stepPara
  dsimp only
  generalize (match get_header para with
    | some h' => some h'
    | none => st.current_header) = hdr
  by_cases hbig : ck.chunk_size < (tok.encode para).length
  · rw [if_pos hbig]
    have hflush := flushCurrent_inv hdr st ⟨h1, h2, h3, h4, h5⟩
    have hinit2 := sentLoopInit_inv _ hflush
    have hfold2 := foldl_stepSent_inv tok ck hdr (split_sentences para) _ hinit2
    have hs2 := sentFinal_inv hdr _ hfold2
    obtain ⟨g1, g2, g3, g4, g5⟩ := hs2
    exact ⟨g1, g2, g3, le_trans g4 g5, by dsimp only; omega⟩
  · rw [if_neg hbig]
    by_cases helif : ck.chunk_size < st.current_tokens + (tok.encode para).length ∧
        st.current_chunk ≠ []
    · rw [if_pos helif]
      refine ⟨IdxOk_append h1 h3, StartMono_append h2 h4, by simp [h3], ?_, ?_⟩
      · rw [lastStart_append]
        exact h5
      · dsimp only
        omega
    · rw [if_neg helif]
      exact ⟨h1, h2, h3, h4, by dsimp only; omega⟩

/-- The whole paragraph loop preserves the invariant. -/
theorem foldl_stepPara_inv (tok : Tokenizer) (ck : LocalChunker) (paras : List PStr) :
    ∀ (st : ChunkState), InvP st →
      InvP (paras.foldl (stepPara tok ck) st) := by
  induction paras with
  | nil => exact fun st h => h
  | cons p rest ih => exact fun st h => ih _ (stepPara_inv tok ck st p h)

/-- The final chunk list satisfies both ordering invariants. -/
theorem chunk_text_invariants (tok : Tokenizer) (ck : LocalChunker) (text : PStr) :
    IdxOk (chunk_text tok ck text) ∧ StartMono (chunk_text tok ck text) := by
  have hinit : InvP initChunkState := by
    refine ⟨fun i hlt => absurd hlt (by simp [initChunkState]), ?_, rfl, le_refl _, le_refl _⟩
    simp [initChunkState, StartMono]
  have hfold := foldl_stepPara_inv tok ck (parasOf text) initChunkState hinit
  obtain ⟨h1, h2, h3, h4, h5⟩ := hfold
  unfold chunk_text
  dsimp only
  by_cases hfin : ((parasOf text).foldl (stepPara tok ck) initChunkState).current_chunk ≠ []
  · rw [if_pos hfin]
    exact ⟨IdxOk_append h1 h3, StartMono_append h2 h4⟩
  · rw [if_neg hfin]
    exact ⟨h1, h2⟩

/-- Claim C7.  For every tokenizer, chunker configuration and input text, the
chunk list produced by `chunk_text` has `chunk_index` strictly increasing from
0 (chunk `k` carries `chunk_index = k`), and each consecutive pair has
non-decreasing `char_start`. -/
theorem C7_chunk_ordering (tok : Tokenizer) (ck : LocalChunker) (text : PStr) :
    (∀ k (hk : k < (chunk_text tok ck text).length),
      ((chunk_text tok ck text).get ⟨k, hk⟩).chunk_index = k) ∧
    (∀ k (hk : k + 1 < (chunk_text tok ck text).length),
      ((chunk_text tok ck text).get ⟨k, Nat.lt_of_succ_lt hk⟩).char_start
        ≤ ((chunk_text tok ck text).get ⟨k + 1, hk⟩).char_start) := by
  obtain ⟨hidx, hmono⟩ := chunk_text_invariants tok ck text
  refine ⟨hidx, fun k hk => ?_⟩
  exact List.chain'_iff_get.mp hmono k (by omega)


/-- `splitP` always returns at least one piece. -/
theorem splitP_ne_nil (p : Char → Bool) : ∀ s : PStr, splitP p s ≠ []
  | [] => by simp [splitP]
  | c :: cs => by
    simp only [splitP]
    rcases hs : splitP p cs with _ | ⟨h, t⟩
    · simp
    · simp only [hs]
      split <;> simp

/-- Splitting distributes over concatenation at a separator character. -/
theorem splitP_append_sep (p : Char → Bool) {c : Char} (hc : p c = true) :
    ∀ (a b : PStr), splitP p (a ++ c :: b) = splitP p a ++ splitP p b := by
  intro a
  induction a with
  | nil =>
    intro b
    obtain ⟨h, t, hb⟩ := List.exists_cons_of_ne_nil (splitP_ne_nil p b)
    show splitP p (c :: b) = splitP p [] ++ splitP p b
    simp only [splitP, hb, hc, if_true]
    rfl
  | cons x a' ih =>
    intro b
    obtain ⟨h, t, ha⟩ := List.exists_cons_of_ne_nil (splitP_ne_nil p a')
    show splitP p (x :: (a' ++ c :: b)) = splitP p (x :: a') ++ splitP p b
    simp only [splitP]
    rw [ih b]
    simp only [ha, List.cons_append]
    by_cases hx : p x = true
    · simp only [hx, if_true]
      rfl
    · simp only [hx, if_false]
      rfl

/-- No split piece contains a separator character. -/
theorem splitP_mem_not (p : Char → Bool) :
    ∀ s : PStr, ∀ w ∈ splitP p s, ∀ ch ∈ w, ¬ p ch = true := by
  intro s
  induction s with
  | nil =>
    intro w hw ch hch
    simp [splitP] at hw
    subst hw
    cases hch
  | cons x cs ih =>
    intro w hw ch hch
    obtain ⟨h, t, hs⟩ := List.exists_cons_of_ne_nil (splitP_ne_nil p cs)
    simp only [splitP, hs] at hw
    by_cases hx : p x = true
    · rw [if_pos hx] at hw
      rcases List.mem_cons.mp hw with rfl | hw2
      · cases hch
      · exact ih w (hs ▸ hw2) ch hch
    · rw [if_neg hx] at hw
      rcases List.mem_cons.mp hw with rfl | hw2
      · rcases List.mem_cons.mp hch with rfl | hch2
        · exact hx
        · exact ih h (hs ▸ List.mem_cons_self h t) ch hch2
      · exact ih w (hs ▸ List.mem_cons_of_mem h hw2) ch hch

/-- Every word is non-empty and whitespace-free. -/
theorem words_good : ∀ (s : PStr), ∀ w ∈ words s, w ≠ [] ∧ ∀ ch ∈ w, ¬ wsChar ch = true := by
  intro s w hw
  obtain ⟨hmem, hne⟩ := List.mem_filter.mp hw
  exact ⟨by simpa using hne, splitP_mem_not wsChar s w hmem⟩

/-- Tokenizing across a whitespace character splits cleanly: the word
tokenizer is additive over whitespace-joined texts. -/
theorem words_append_ws {c : Char} (hc : wsChar c = true) (a b : PStr) :
    words (a ++ c :: b) = words a ++ words b := by
  unfold words
  rw [splitP_append_sep wsChar hc, List.filter_append]

/-- A leading whitespace character does not change the token list. -/
theorem words_cons_ws {c : Char} (hc : wsChar c = true) (b : PStr) :
    words (c :: b) = words b := by
  have := words_append_ws hc [] b
  simpa using this

/-- A non-empty whitespace-free text is a single token. -/
theorem words_single {w : PStr} (hne : w ≠ []) (hch : ∀ ch ∈ w, ¬ wsChar ch = true) :
    words w = [w] := by
  suffices h : splitP wsChar w = [w] by
    unfold words
    rw [h]
    simp [hne]
  induction w with
  | nil => exact absurd rfl hne
  | cons x rest ih =>
    have hx : ¬ wsChar x = true := hch x (List.mem_cons_self x rest)
    cases rest with
    | nil => simp [splitP, hx]
    | cons y rest2 =>
      have hr : splitP wsChar (y :: rest2) = [y :: rest2] :=
        ih (by simp) (fun ch h2 => hch ch (List.mem_cons_of_mem x h2))
      conv_lhs => rw [splitP, hr]
      dsimp only
      rw [if_neg hx]

/-- Decoding a token list with single spaces and re-encoding recovers the
tokens (`decode` is a right inverse of `encode` on well-formed tokens). -/
theorem words_joinSp {ts : List PStr}
    (h : ∀ t ∈ ts, t ≠ [] ∧ ∀ ch ∈ t, ¬ wsChar ch = true) :
    words (joinSp ts) = ts := by
  induction ts with
  | nil => rfl
  | cons x rest ih =>
    cases rest with
    | nil =>
      show words x = [x]
      exact words_single (h x (by simp)).1 (h x (by simp)).2
    | cons y rest2 =>
      show words (x ++ [' '] ++ joinWith [' '] (y :: rest2)) = x :: y :: rest2
      rw [List.append_assoc, List.singleton_append]
      rw [words_append_ws (by decide) x (joinWith [' '] (y :: rest2))]
      rw [words_single (h x (by simp)).1 (h x (by simp)).2]
      rw [show joinWith [' '] (y :: rest2) = joinSp (y :: rest2) from rfl]
      rw [ih (fun t ht => h t (List.mem_cons_of_mem x ht))]
      rfl

/-- `_get_overlap_text` returns at most `overlap_tokens` tokens when the
overlap is positive (`tokens[-0:]` would return everything). -/
theorem overlap_tokens_le {k : Nat} (hk : 0 < k) (chunks : List PStr) :
    (words (get_overlap_text wordTok chunks k)).length ≤ k := by
  unfold get_overlap_text
  dsimp only
  by_cases hle : (wordTok.encode (joinPara chunks)).length ≤ k
  · rw [if_pos hle]
    exact hle
  · rw [if_neg hle, if_neg (by omega : ¬ k = 0)]
    show (words (joinSp ((words (joinPara chunks)).drop
      ((words (joinPara chunks)).length - k)))).length ≤ k
    rw [words_joinSp (fun t ht => words_good _ t (List.mem_of_mem_drop ht))]
    rw [List.length_drop]
    omega

/-- Joining two texts with the paragraph separator concatenates their token
lists. -/
theorem words_joinPara_pair (a b : PStr) :
    words (joinPara [a, b]) = words a ++ words b := by
  show words (a ++ ['\n', '\n'] ++ b) = words a ++ words b
  rw [List.append_assoc, List.cons_append, List.singleton_append]
  rw [words_append_ws (by decide) a ('\n' :: b)]
  rw [words_cons_ws (by decide)]

/-- One sentence step keeps every chunk within `chunk_size + chunk_overlap`
tokens, provided this sentence fits in `chunk_size` alone. -/
theorem stepSent_tokBound (ck : LocalChunker) (header : Option PStr) (ss : SentState)
    (s : PStr) (hov : 0 < ck.chunk_overlap)
    (hs : (words s).length ≤ ck.chunk_size)
    (h : TokBoundS ck ss) : TokBoundS ck (stepSent wordTok ck header ss s) := by
  obtain ⟨h1, h2, h3⟩ := h
  have hs' : (wordTok.encode s).length ≤ ck.chunk_size := hs
  unfold stepSent
  dsimp only
  by_cases hg : ck.chunk_size < ss.sentence_tokens + (wordTok.encode s).length ∧
      ss.sentence_chunk ≠ []
  · rw [if_pos hg]
    refine ⟨?_, ?_, fun hemp => absurd hemp (by simp)⟩
    · intro c hc
      dsimp only at hc
      rcases List.mem_append.mp hc with hold | hnew
      · exact h1 c hold
      · rw [List.mem_singleton.mp hnew]
        exact h2
    · dsimp only
      by_cases ho : get_overlap_text wordTok ss.sentence_chunk ck.chunk_overlap = []
      · rw [if_pos ho]
        have hz : (wordTok.encode (joinSp ([] : List PStr))).length = 0 := rfl
        omega
      · rw [if_neg ho]
        have ho2 : (words (get_overlap_text wordTok ss.sentence_chunk ck.chunk_overlap)).length
            ≤ ck.chunk_overlap := overlap_tokens_le hov _
        have hj : (wordTok.encode
            (joinSp [get_overlap_text wordTok ss.sentence_chunk ck.chunk_overlap])).length
            = (words (get_overlap_text wordTok ss.sentence_chunk ck.chunk_overlap)).length := rfl
        omega
  · rw [if_neg hg]
    refine ⟨h1, ?_, fun hemp => absurd hemp (by simp)⟩
    dsimp only
    rcases not_and_or.mp hg with hna | hnb
    · have := Nat.le_of_not_lt hna
      omega
    · have := h3 (not_ne_iff.mp hnb)
      omega

/-- The sentence loop keeps the token bound when every sentence fits in
`chunk_size`. -/
theorem foldl_stepSent_tokBound (ck : LocalChunker) (header : Option PStr)
    (sentences : List PStr) (hov : 0 < ck.chunk_overlap)
    (hall : ∀ s ∈ sentences, (words s).length ≤ ck.chunk_size) :
    ∀ (s0 : SentState), TokBoundS ck s0 →
      TokBoundS ck (sentences.foldl (stepSent wordTok ck header) s0) := by
  induction sentences with
  | nil => exact fun s0 h => h
  | cons s rest ih =>
    intro s0 h
    exact ih (fun t ht => hall t (List.mem_cons_of_mem s ht)) _
      (stepSent_tokBound ck header s0 s hov (hall s (List.mem_cons_self s rest)) h)

/-- Flushing the paragraph buffer keeps the token bound. -/
theorem flushCurrent_tokBound (ck : LocalChunker) (hdr : Option PStr) (st : ChunkState)
    (h : TokBoundP ck st) : TokBoundP ck (flushCurrent hdr st) := by
  obtain ⟨h1, h2, h3⟩ := h
  unfold flushCurrent
  by_cases hc : st.current_chunk ≠ []
  · rw [if_pos hc]
    refine ⟨?_, h2, h3⟩
    intro c hcm
    dsimp only at hcm
    rcases List.mem_append.mp hcm with hold | hnew
    · exact h1 c hold
    · rw [List.mem_singleton.mp hnew]
      exact h2
  · rw [if_neg hc]
    exact ⟨h1, h2, h3⟩

/-- Entering the sentence loop keeps the token bound. -/
theorem sentLoopInit_tokBound (ck : LocalChunker) (st : ChunkState)
    (h : TokBoundP ck st) : TokBoundS ck (sentLoopInit st) :=
  ⟨h.1, Nat.zero_le _, fun _ => rfl⟩

/-- Saving the remaining sentences keeps the token bound. -/
theorem sentFinal_tokBound (ck : LocalChunker) (hdr : Option PStr) (s : SentState)
    (h : TokBoundS ck s) : TokBoundS ck (sentFinal hdr s) := by
  obtain ⟨h1, h2, h3⟩ := h
  unfold sentFinal
  by_cases hc : s.sentence_chunk ≠ []
  · rw [if_pos hc]
    refine ⟨?_, h2, h3⟩
    intro c hcm
    dsimp only at hcm
    rcases List.mem_append.mp hcm with hold | hnew
    · exact h1 c hold
    · rw [List.mem_singleton.mp hnew]
      exact h2
  · rw [if_neg hc]
    exact ⟨h1, h2, h3⟩

/-- One paragraph step keeps the token bound when every sentence of the
paragraph fits in `chunk_size` alone. -/
theorem stepPara_tokBound (ck : LocalChunker) (st : ChunkState) (para : PStr)
    (hov : 0 < ck.chunk_overlap)
    (hpara : ∀ s ∈ split_sentences para, (words s).length ≤ ck.chunk_size)
    (h : TokBoundP ck st) : TokBoundP ck (stepPara wordTok ck st para) := by
  obtain ⟨h1, h2, h3⟩ := h
  unfold stepPara
  dsimp only
  set hdr := (match get_header para with
    | some h' => some h'
    | none => st.current_header) with hh
  by_cases hbig : ck.chunk_size < (wordTok.encode para).length
  · rw [if_pos hbig]
    have hs2 := sentFinal_tokBound ck hdr _
      (foldl_stepSent_tokBound ck hdr (split_sentences para) hov hpara _
        (sentLoopInit_tokBound ck _ (flushCurrent_tokBound ck hdr st ⟨h1, h2, h3⟩)))
    exact ⟨hs2.1, Nat.zero_le _, fun _ => rfl⟩
  · rw [if_neg hbig]
    have hple : (wordTok.encode para).length ≤ ck.chunk_size := Nat.le_of_not_lt hbig
    by_cases helif : ck.chunk_size < st.current_tokens + (wordTok.encode para).length ∧
        st.current_chunk ≠ []
    · rw [if_pos helif]
      refine ⟨?_, ?_, fun hemp => by
        by_cases ho : get_overlap_text wordTok st.current_chunk ck.chunk_overlap = [] <;>
          simp [ho] at hemp⟩
      · intro c hcm
        dsimp only at hcm
        rcases List.mem_append.mp hcm with hold | hnew
        · exact h1 c hold
        · rw [List.mem_singleton.mp hnew]
          exact h2
      · dsimp only
        by_cases ho : get_overlap_text wordTok st.current_chunk ck.chunk_overlap = []
        · rw [if_pos ho]
          have hj : (wordTok.encode (joinPara [para])).length
              = (words para).length := rfl
          have hple' : (words para).length ≤ ck.chunk_size := hple
          omega
        · rw [if_neg ho]
          have hj : (wordTok.encode
              (joinPara [get_overlap_text wordTok st.current_chunk ck.chunk_overlap, para])).length
              = (words (get_overlap_text wordTok st.current_chunk ck.chunk_overlap)).length
                + (words para).length := by
            show (words (joinPara [_, _])).length = _
            rw [words_joinPara_pair]
            exact List.length_append _ _
          have ho2 : (words (get_overlap_text wordTok st.current_chunk ck.chunk_overlap)).length
              ≤ ck.chunk_overlap := overlap_tokens_le hov _
          have hple' : (words para).length ≤ ck.chunk_size := hple
          omega
    · rw [if_neg helif]
      refine ⟨h1, ?_, fun hemp => absurd hemp (by simp)⟩
      dsimp only
      rcases not_and_or.mp helif with hna | hnb
      · have := Nat.le_of_not_lt hna
        omega
      · have := h3 (not_ne_iff.mp hnb)
        omega

/-- The paragraph loop keeps the token bound. -/
theorem foldl_stepPara_tokBound (ck : LocalChunker) (paras : List PStr)
    (hov : 0 < ck.chunk_overlap)
    (hall : ∀ p ∈ paras, ∀ s ∈ split_sentences p, (words s).length ≤ ck.chunk_size) :
    ∀ (st : ChunkState), TokBoundP ck st →
      TokBoundP ck (paras.foldl (stepPara wordTok ck) st) := by
  induction paras with
  | nil => exact fun st h => h
  | cons p rest ih =>
    intro st h
    exact ih (fun q hq => hall q (List.mem_cons_of_mem p hq)) _
      (stepPara_tokBound ck st p hov (hall p (List.mem_cons_self p rest)) h)

/-- Claim C6, amended.  With the word tokenizer, a positive overlap, and no
single sentence exceeding `chunk_size` by itself, every chunk produced by
`chunk_text` has `token_count ≤ chunk_size + chunk_overlap`: the overlap text
seeded from the previous chunk counts toward the next chunk's token budget,
so chunks exceed `chunk_size` by up to `chunk_overlap` tokens (and only
chunks containing an over-long indivisible sentence can exceed that). -/
theorem C6_token_bound_amended (size overlap : Nat) (hov : 0 < overlap) (text : PStr)
    (hsent : ∀ p ∈ parasOf text, ∀ s ∈ split_sentences p, (words s).length ≤ size) :
    ∀ c ∈ chunk_text wordTok ⟨size, overlap⟩ text,
      c.token_count ≤ size + overlap := by
  intro c hc
  have hfold := foldl_stepPara_tokBound ⟨size, overlap⟩ (parasOf text) hov hsent
    initChunkState
    ⟨fun d hd => absurd hd (by simp [initChunkState]), Nat.zero_le _, fun _ => rfl⟩
  obtain ⟨g1, g2, g3⟩ := hfold
  unfold chunk_text at hc
  dsimp only at hc
  by_cases hfin : ((parasOf text).foldl (stepPara wordTok ⟨size, overlap⟩)
      initChunkState).current_chunk ≠ []
  · rw [if_pos hfin] at hc
    rcases List.mem_append.mp hc with hold | hnew
    · exact g1 c hold
    · rw [List.mem_singleton.mp hnew]
      exact g2
  · rw [if_neg hfin] at hc
    exact g1 c hc

/-- Claim C6, counterexample.  Chunking three short multi-sentence paragraphs
at `chunk_size 4`, `chunk_overlap 2` produces a chunk of `token_count 5 > 4`
(the overlap seed plus a paragraph), every sentence of whose content is far
below the limit: the claimed `token_count ≤ chunk_size`-except-indivisible-
sentence invariant is false. -/
theorem C6_token_bound_counterexample :
    ¬ (∀ c ∈ chunk_text wordTok ⟨4, 2⟩ exText, c.token_count ≤ 4 ∨
        ∃ s ∈ split_sentences c.content, 4 < (wordTok.encode s).length) := by
  decide

/-- Claim C6, witness for the amended theorem at the concrete configuration
`(4, 2)` and input `exText`, instantiated at the overlap-seeded second chunk
(5 tokens). -/
theorem C6_token_bound_amended_witness :
    ((chunk_text wordTok ⟨4, 2⟩ exText).getD 1 defaultChunk).token_count ≤ 4 + 2 :=
  C6_token_bound_amended 4 2 (by decide) exText (by decide) _ (by decide)

end Lumen
